import Mathlib

set_option maxHeartbeats 1000000

namespace SmartSlider

/-! Shallow embedding of the smart-image-slider core: the per-slice pixel
pipeline (`src/app/src/utils/canvasProcessor.ts`), the geometry resolver and
the slice processing queue (`SliceGallery`). Channel values are naturals,
canvas float arithmetic is modelled over `ℚ`, and the `Uint8ClampedArray`
store semantics (clamp + round half to even) is made explicit. -/

/-- An RGBA pixel with 8-bit channels, as stored in a canvas `ImageData`. -/
structure Pixel where
  r : ℕ
  g : ℕ
  b : ℕ
  a : ℕ
deriving DecidableEq, Repr

/-- A pixel buffer with its canvas dimensions, row-major. -/
structure Img where
  width : ℕ
  height : ℕ
  data : List Pixel
deriving DecidableEq, Repr

/-- Store semantics of a `Uint8ClampedArray` element: clamp to `[0, 255]`,
round to nearest, ties to even. -/
def u8 (q : ℚ) : ℕ :=
  if q ≤ 0 then 0
  else if 255 ≤ q then 255
  else
    (if q - Int.floor q < 1/2 then Int.floor q
     else if 1/2 < q - Int.floor q then Int.floor q + 1
     else if 2 ∣ Int.floor q then Int.floor q
     else Int.floor q + 1).toNat

/-- The named color filters offered by `applyFilter`. -/
inductive FilterName where
  | grayscale
  | sepia
  | brightness
  | vibrant
  | cinematic
  | japanese
  | warm
deriving DecidableEq, Repr

/-- `grayscale`: luminance written to all three channels; transparent pixels
are skipped. -/
def grayscalePixel (p : Pixel) : Pixel :=
  if p.a = 0 then p
  else
    let gy := (p.r : ℚ) * (299/1000) + (p.g : ℚ) * (587/1000) + (p.b : ℚ) * (114/1000)
    { r := u8 gy, g := u8 gy, b := u8 gy, a := p.a }

/-- `sepia`: the 3×3 sepia matrix, each channel capped at 255. -/
def sepiaPixel (p : Pixel) : Pixel :=
  if p.a = 0 then p
  else
    let r := (p.r : ℚ)
    let g := (p.g : ℚ)
    let b := (p.b : ℚ)
    { r := u8 (min 255 (r * (393/1000) + g * (769/1000) + b * (189/1000)))
      g := u8 (min 255 (r * (349/1000) + g * (686/1000) + b * (168/1000)))
      b := u8 (min 255 (r * (272/1000) + g * (534/1000) + b * (131/1000)))
      a := p.a }

/-- `brightness`: add 30 to each channel, capped at 255. -/
def brightnessPixel (p : Pixel) : Pixel :=
  if p.a = 0 then p
  else
    { r := u8 (min 255 ((p.r : ℚ) + 30))
      g := u8 (min 255 ((p.g : ℚ) + 30))
      b := u8 (min 255 ((p.b : ℚ) + 30))
      a := p.a }

/-- `vibrant`: boost saturation by 40% around the channel average; pixels with
zero max-min delta are left as they are. -/
def vibrantPixel (p : Pixel) : Pixel :=
  if p.a = 0 then p
  else
    let mx := max p.r (max p.g p.b)
    let mn := min p.r (min p.g p.b)
    if mn < mx then
      let avg := ((p.r : ℚ) + p.g + p.b) / 3
      { r := u8 (min 255 (avg + ((p.r : ℚ) - avg) * (14/10)))
        g := u8 (min 255 (avg + ((p.g : ℚ) - avg) * (14/10)))
        b := u8 (min 255 (avg + ((p.b : ℚ) - avg) * (14/10)))
        a := p.a }
    else p

/-- `cinematic`, pass 1: desaturate to 60% around luminance. -/
def cinematicPass1 (p : Pixel) : Pixel :=
  if p.a = 0 then p
  else
    let gy := (p.r : ℚ) * (299/1000) + (p.g : ℚ) * (587/1000) + (p.b : ℚ) * (114/1000)
    { r := u8 (gy + ((p.r : ℚ) - gy) * (6/10))
      g := u8 (gy + ((p.g : ℚ) - gy) * (6/10))
      b := u8 (gy + ((p.b : ℚ) - gy) * (6/10))
      a := p.a }

/-- `cinematic`, pass 2: teal shift in shadows, orange shift in highlights. -/
def cinematicPass2 (p : Pixel) : Pixel :=
  if p.a = 0 then p
  else
    let lum := (p.r : ℚ) * (299/1000) + (p.g : ℚ) * (587/1000) + (p.b : ℚ) * (114/1000)
    if lum < 128 then
      { r := u8 (max 0 ((p.r : ℚ) - 10))
        g := u8 (min 255 ((p.g : ℚ) + 5))
        b := u8 (min 255 ((p.b : ℚ) + 15))
        a := p.a }
    else
      { r := u8 (min 255 ((p.r : ℚ) + 15))
        g := u8 (min 255 ((p.g : ℚ) + 5))
        b := u8 (max 0 ((p.b : ℚ) - 10))
        a := p.a }

/-- `cinematic`, pass 3: radial vignette. The source computes the distance with
`Math.sqrt`; the square root is kept abstract as the parameter `sq`. -/
def cinematicPass3 (sq : ℚ → ℚ) (w h x y : ℕ) (p : Pixel) : Pixel :=
  if p.a = 0 then p
  else
    let cX := (w : ℚ) / 2
    let cY := (h : ℚ) / 2
    let maxDist := sq (cX * cX + cY * cY)
    let dist := sq (((x : ℚ) - cX) * ((x : ℚ) - cX) + ((y : ℚ) - cY) * ((y : ℚ) - cY))
    let vignette := 1 - dist / maxDist * (1/2)
    { r := u8 ((p.r : ℚ) * vignette)
      g := u8 ((p.g : ℚ) * vignette)
      b := u8 ((p.b : ℚ) * vignette)
      a := p.a }

/-- `japanese`: raise exposure, flatten contrast to 70%, cool-tone shift. -/
def japanesePixel (p : Pixel) : Pixel :=
  if p.a = 0 then p
  else
    let r1 := min 255 ((p.r : ℚ) + 40)
    let g1 := min 255 ((p.g : ℚ) + 40)
    let b1 := min 255 ((p.b : ℚ) + 40)
    let avg := (r1 + g1 + b1) / 3
    let r2 := avg + (r1 - avg) * (7/10)
    let g2 := avg + (g1 - avg) * (7/10)
    let b2 := avg + (b1 - avg) * (7/10)
    { r := u8 (max 0 (r2 - 10)), g := u8 g2, b := u8 (min 255 (b2 + 15)), a := p.a }

/-- `warm`: warm-tone shift, per channel clamped. -/
def warmPixel (p : Pixel) : Pixel :=
  if p.a = 0 then p
  else
    { r := u8 (min 255 ((p.r : ℚ) + 25))
      g := u8 (min 255 ((p.g : ℚ) + 10))
      b := u8 (max 0 ((p.b : ℚ) - 15))
      a := p.a }

/-- `applyFilter`: apply the named filter to every pixel of the buffer.
`cinematic` makes three sequential whole-buffer passes; each pass reads only
the pixel it rewrites, so a pass is a map over the buffer. -/
def applyFilter (sq : ℚ → ℚ) (f : FilterName) (img : Img) : Img :=
  match f with
  | .grayscale => { img with data := img.data.map grayscalePixel }
  | .sepia => { img with data := img.data.map sepiaPixel }
  | .brightness => { img with data := img.data.map brightnessPixel }
  | .vibrant => { img with data := img.data.map vibrantPixel }
  | .cinematic =>
      let d1 := img.data.map cinematicPass1
      let d2 := d1.map cinematicPass2
      { img with data := d2.mapIdx (fun i p =>
          cinematicPass3 sq img.width img.height (i % img.width) (i / img.width) p) }
  | .japanese => { img with data := img.data.map japanesePixel }
  | .warm => { img with data := img.data.map warmPixel }

/-- Value produced by an out-of-range read of the pixel buffer. In the source
an out-of-range `Uint8ClampedArray` read yields `undefined`, for which both
background tests (`a < 20`, channels `> 240`) are false; this pixel value
makes `shouldVisit` answer false the same way. -/
def oobPixel : Pixel := { r := 0, g := 0, b := 0, a := 255 }

/-- The flood fill's background test on one pixel: traversable when nearly
transparent (alpha < 20) or near-white (R, G, B all > 240). -/
def travPixel (p : Pixel) : Bool :=
  if p.a < 20 then true
  else decide (240 < p.r) && decide (240 < p.g) && decide (240 < p.b)

/-- The flood fill's background test at a linear index. -/
def shouldVisit (d : List Pixel) (idx : ℕ) : Bool :=
  travPixel (d.getD idx oobPixel)

/-- One seeding step for a top-row or bottom-row border pixel: pushed (and
marked visited) whenever traversable, without consulting `visited`, exactly
as the source does — with height 1 the same index can enter the queue
twice. -/
def seedPush (trav : ℕ → Bool) (st : List ℕ × (ℕ → Bool)) (idx : ℕ) :
    List ℕ × (ℕ → Bool) :=
  if trav idx then (st.1 ++ [idx], Function.update st.2 idx true) else st

/-- One seeding step for a left-column or right-column border pixel: pushed
only when traversable and not yet visited. -/
def seedPushChecked (trav : ℕ → Bool) (st : List ℕ × (ℕ → Bool)) (idx : ℕ) :
    List ℕ × (ℕ → Bool) :=
  if !st.2 idx && trav idx then (st.1 ++ [idx], Function.update st.2 idx true)
  else st

/-- Seed the queue with the traversable top-row and bottom-row border
pixels. -/
def seedTopBottom (trav : ℕ → Bool) (w h : ℕ) : List ℕ × (ℕ → Bool) :=
  (List.range w).foldl
    (fun st x => seedPush trav (seedPush trav st x) ((h - 1) * w + x))
    ([], fun _ => false)

/-- Continue seeding with the traversable, not yet visited left-column and
right-column border pixels. -/
def seedLeftRight (trav : ℕ → Bool) (w h : ℕ) (st0 : List ℕ × (ℕ → Bool)) :
    List ℕ × (ℕ → Bool) :=
  (List.range h).foldl
    (fun st y =>
      seedPushChecked trav (seedPushChecked trav st (y * w)) (y * w + (w - 1)))
    st0

/-- The 4-connected neighbor candidates of `idx` (up, down, left, right) with
the source's guards: up requires a full row above, and a left/right step never
crosses a row boundary. The `< size` bound is checked at use sites. -/
def neighborList (w idx : ℕ) : List ℕ :=
  (if w ≤ idx then [idx - w] else []) ++ [idx + w] ++
    (if 0 < idx % w then [idx - 1] else []) ++
    (if idx % w < w - 1 then [idx + 1] else [])

/-- One BFS push: a neighbor enters the queue (and is marked visited at
once, as the source does) when in bounds, unvisited and traversable. -/
def bfsPush (trav : ℕ → Bool) (size : ℕ) (st : List ℕ × (ℕ → Bool)) (n : ℕ) :
    List ℕ × (ℕ → Bool) :=
  if decide (n < size) && !st.2 n && trav n then
    (st.1 ++ [n], Function.update st.2 n true)
  else st

/-- The BFS loop: pop the queue head, record it, and push its eligible
neighbors. Returns the popped indices in pop order. `fuel` bounds the number
of pops; `floodCore` supplies enough fuel for the queue to drain. -/
def bfsRun (trav : ℕ → Bool) (w size : ℕ) :
    ℕ → List ℕ → (ℕ → Bool) → List ℕ
  | 0, _, _ => []
  | _ + 1, [], _ => []
  | fuel + 1, idx :: rest, visited =>
      let st := (neighborList w idx).foldl (bfsPush trav size) (rest, visited)
      idx :: bfsRun trav w size fuel st.1 st.2

/-- All indices popped by the border-seeded flood fill, as a function of the
traversability map alone. Every queue entry is marked visited when pushed and
never re-pushed, so at most `w*h` loop pushes and `2*w + 2*h` seed pushes can
occur; the fuel covers every pop. -/
def floodCore (trav : ℕ → Bool) (w h : ℕ) : List ℕ :=
  let st := seedLeftRight trav w h (seedTopBottom trav w h)
  bfsRun trav w (w * h) (2 * w + 2 * h + w * h) st.1 st.2

/-- Traversability map of a buffer. -/
def travOf (d : List Pixel) : ℕ → Bool := shouldVisit d

/-- Zero the alpha byte of every pixel whose index is in `S`. -/
def zeroAlphaAt (S : List ℕ) (d : List Pixel) : List Pixel :=
  d.mapIdx (fun i p => if S.contains i then { p with a := 0 } else p)

/-- One border-seeded flood-fill matting pass over a `w×h` buffer. In the
source, alpha is zeroed as each index is popped; the traversability test is
only ever consulted on unvisited indices, whose bytes are still the original
ones, so the pass factors as: compute the popped set from the original
buffer's traversability map, then zero the alpha of every popped index. -/
def matData (d : List Pixel) (w h : ℕ) : List Pixel :=
  zeroAlphaAt (floodCore (travOf d) w h) d

/-- Matting on a buffer with its dimensions. -/
def matImage (img : Img) : Img :=
  { img with data := matData img.data img.width img.height }

/-- The processing configuration handed to `processImage`. `strokeWidth` is
optional in the source (`config.strokeWidth || 6`); `filter` is the optional
named filter. -/
structure ProcessConfig where
  removeWhite : Bool
  addStroke : Bool
  strokeWidth : Option ℕ
  strokeColor : Option String
  filter : Option FilterName
deriving DecidableEq

/-- `config.strokeWidth || 6`: a missing or zero (falsy) stroke width falls
back to 6. -/
def rawStrokeW (cfg : ProcessConfig) : ℕ :=
  match cfg.strokeWidth with
  | some n => if n = 0 then 6 else n
  | none => 6

/-- The doubled stroke width (`rawStrokeW * 2`). -/
def strokeWval (cfg : ProcessConfig) : ℕ := rawStrokeW cfg * 2

/-- Canvas padding: `strokeW + 4` when stroke is enabled, else 0. -/
def paddingOf (cfg : ProcessConfig) : ℕ :=
  if cfg.addStroke then strokeWval cfg + 4 else 0

/-- A fresh canvas of the padded size with the source image drawn at
`(padding, padding)`; untouched canvas pixels are fully transparent black. -/
def padImage (img : Img) (p : ℕ) : Img :=
  { width := img.width + 2 * p
    height := img.height + 2 * p
    data := (List.range (img.height + 2 * p)).flatMap (fun y =>
      (List.range (img.width + 2 * p)).map (fun x =>
        if p ≤ x ∧ x < p + img.width ∧ p ≤ y ∧ y < p + img.height then
          img.data.getD ((y - p) * img.width + (x - p)) oobPixel
        else { r := 0, g := 0, b := 0, a := 0 })) }

/-- The shadow-stacked stroke stage. The silhouette build and the repeated
blurred-shadow compositing write pixels through the canvas shadow filter,
whose blur is unspecified; the model keeps the produced pixel bytes abstract
as `strokePixels`. The output canvas always has the working canvas's
dimensions, as in the source (`fCanvas.width = canvas.width`). -/
def strokeStage (strokePixels : Img → ProcessConfig → List Pixel)
    (c : Img) (cfg : ProcessConfig) : Img :=
  { width := c.width, height := c.height, data := strokePixels c cfg }

/-- The matting step of the pipeline, run when `removeWhite` is set. -/
def matStage (cfg : ProcessConfig) (c : Img) : Img :=
  if cfg.removeWhite then matImage c else c

/-- The filter step of the pipeline, run when a filter is set. -/
def filterStage (sq : ℚ → ℚ) (cfg : ProcessConfig) (c : Img) : Img :=
  match cfg.filter with
  | some f => applyFilter sq f c
  | none => c

/-- The stroke step of the pipeline, run when `addStroke` is set. -/
def strokeStageIf (strokePixels : Img → ProcessConfig → List Pixel)
    (cfg : ProcessConfig) (c : Img) : Img :=
  if cfg.addStroke then strokeStage strokePixels c cfg else c

/-- `processImage`, following the source top to bottom: pad, draw, then the
`removeWhite` flood fill, then the filter, then a second, identical
`removeWhite` flood-fill block (the block at
`canvasProcessor.ts:271` repeats the matting pass after the filter), then the
shadow-stacked stroke. -/
def processImage (sq : ℚ → ℚ) (strokePixels : Img → ProcessConfig → List Pixel)
    (img : Img) (cfg : ProcessConfig) : Img :=
  let canvas0 := padImage img (paddingOf cfg)
  let canvas1 := if cfg.removeWhite then matImage canvas0 else canvas0
  let canvas2 :=
    match cfg.filter with
    | some f => applyFilter sq f canvas1
    | none => canvas1
  let canvas3 := if cfg.removeWhite then matImage canvas2 else canvas2
  if cfg.addStroke then strokeStage strokePixels canvas3 cfg else canvas3

/-- Modelled from the spec's words for comparison with `processImage`: the
pipeline applies matting (when `removeWhite`), then the named filter (when
set), then stroke synthesis (when `addStroke`), in that fixed order, with no
other pixel transform interposed between or after them. -/
def specOrderedPipeline (sq : ℚ → ℚ)
    (strokePixels : Img → ProcessConfig → List Pixel)
    (img : Img) (cfg : ProcessConfig) : Img :=
  let canvas0 := padImage img (paddingOf cfg)
  let canvas1 := if cfg.removeWhite then matImage canvas0 else canvas0
  let canvas2 :=
    match cfg.filter with
    | some f => applyFilter sq f canvas1
    | none => canvas1
  if cfg.addStroke then strokeStage strokePixels canvas2 cfg else canvas2

/-- A crop rectangle in percentages of the source image. -/
structure PercentRect where
  x : ℚ
  y : ℚ
  w : ℚ
  h : ℚ
deriving DecidableEq

/-- A slice produced by the geometry resolver: the source-pixel rectangle
(`rect` in the source, real-valued) together with the integer canvas size the
slice is rasterized at (`Math.round(rw)`, `Math.round(rh)`). -/
structure SliceRect where
  x : ℚ
  y : ℚ
  w : ℚ
  h : ℚ
  canvasW : ℤ
  canvasH : ℤ
deriving DecidableEq

/-- JavaScript `Math.round`: round half toward positive infinity. -/
def jsRound (q : ℚ) : ℤ := Int.floor (q + 1/2)

/-- The cut positions along one axis: 0, the grid lines scaled from
percentages to the crop extent, and the crop extent, sorted ascending. -/
def cutPositions (len : ℚ) (lines : List ℚ) : List ℚ :=
  (0 :: lines.map (fun p => p / 100 * len) ++ [len]).mergeSort
    (fun a b => decide (a ≤ b))

/-- The nested cell loop of the geometry resolver: one slice per grid cell,
row-major, dropping cells whose real width or height is non-positive. -/
def gridCells (cx cy : ℚ) (xPos yPos : List ℚ) : List SliceRect :=
  (List.range (yPos.length - 1)).flatMap (fun r =>
    (List.range (xPos.length - 1)).filterMap (fun c =>
      let rx := xPos.getD c 0
      let ry := yPos.getD r 0
      let rw := xPos.getD (c + 1) 0 - rx
      let rh := yPos.getD (r + 1) 0 - ry
      if rw ≤ 0 ∨ rh ≤ 0 then none
      else some { x := cx + rx, y := cy + ry, w := rw, h := rh,
                  canvasW := jsRound rw, canvasH := jsRound rh }))

/-- The geometry resolver (`generateSlices`): scale the crop to pixels, build
the sorted cut positions, and emit the grid cells. -/
def generateSlices (W H : ℕ) (crop : PercentRect) (vLines hLines : List ℚ) :
    List SliceRect :=
  let cx := crop.x / 100 * W
  let cy := crop.y / 100 * H
  let cw := crop.w / 100 * W
  let ch := crop.h / 100 * H
  gridCells cx cy (cutPositions cw vLines) (cutPositions ch hLines)

/-- Membership of a point in the half-open extent of a slice rectangle. -/
def pointInSlice (s : SliceRect) (qx qy : ℚ) : Prop :=
  s.x ≤ qx ∧ qx < s.x + s.w ∧ s.y ≤ qy ∧ qy < s.y + s.h

/-- Status of a slice in the processing queue. -/
inductive SliceStatus where
  | idle
  | pending
  | processing
  | done
deriving DecidableEq, Repr

/-- Queue-visible state of one slice: its processed buffer, if any (as an
abstract token), and its status. -/
structure SliceItem where
  processedSrc : Option ℕ
  status : SliceStatus
deriving DecidableEq, Repr

/-- An in-flight `processSingleSlice` call: the slice index it was started
for, and whether its effect instance is still mounted (an unmounted call's
result is ignored). -/
structure Op where
  idx : ℕ
  mounted : Bool
deriving DecidableEq, Repr

/-- State of the `SliceGallery` queue: the slice list, the two config flags,
the single in-flight slot (`processingIndex`), and the in-flight calls. -/
structure QState where
  slices : List SliceItem
  enableMatting : Bool
  enableStroke : Bool
  slot : Option ℕ
  inflight : List Op
deriving DecidableEq, Repr

/-- The default slice read out of range. -/
def dSlice : SliceItem := { processedSrc := none, status := .idle }

/-- Detach an in-flight call (its effect cleanup ran: `isMounted = false`). -/
def detachOp (o : Op) : Op := { o with mounted := false }

/-- The config-change effect: with both features off, every slice is forced
to `idle` with no processed buffer; otherwise every slice is reset to
`pending`. Either way the slot is released, which unmounts the in-flight
effect instance. -/
def configStep (m s : Bool) (st : QState) : QState :=
  if !m && !s then
    { slices := st.slices.map (fun _ => { processedSrc := none, status := .idle })
      enableMatting := m, enableStroke := s
      slot := none
      inflight := st.inflight.map detachOp }
  else
    { slices := st.slices.map (fun sl => { sl with status := .pending })
      enableMatting := m, enableStroke := s
      slot := none
      inflight := st.inflight.map detachOp }

/-- The finder effect followed directly by the processor effect's synchronous
part: take the lowest-index `pending` slice, point the slot at it, mark it
`processing`, and start its in-flight call. -/
def assignStep (st : QState) (i : ℕ) : QState :=
  { st with
    slices := st.slices.set i { st.slices.getD i dSlice with status := .processing }
    slot := some i
    inflight := st.inflight ++ [{ idx := i, mounted := true }] }

/-- A mounted in-flight call resolving successfully: its slice becomes `done`
with the new processed buffer, and the slot is released. -/
def completeOkStep (st : QState) (o : Op) (res : ℕ) (l1 l2 : List Op) : QState :=
  { st with
    slices := st.slices.set o.idx
      { st.slices.getD o.idx dSlice with status := .done, processedSrc := some res }
    slot := none
    inflight := l1 ++ l2 }

/-- A mounted in-flight call failing: its slice reverts to `idle` (the
`processedSrc` field is not written), and the slot is released. -/
def completeFailStep (st : QState) (o : Op) (l1 l2 : List Op) : QState :=
  { st with
    slices := st.slices.set o.idx
      { st.slices.getD o.idx dSlice with status := .idle }
    slot := none
    inflight := l1 ++ l2 }

/-- An unmounted in-flight call resolving: `isMounted` is false in both the
completion handlers and the `finally` block, so nothing is written. -/
def completeDetachedStep (st : QState) (l1 l2 : List Op) : QState :=
  { st with inflight := l1 ++ l2 }

/-- The fine-tune override (`handleUpdateSlice`): the edited slice's original
buffer is replaced and its status forced to `pending` when a feature is on,
else `idle`; its processed buffer is not written. -/
def editStep (st : QState) (j : ℕ) : QState :=
  { st with
    slices := st.slices.set j
      { st.slices.getD j dSlice with
        status := if st.enableMatting || st.enableStroke then .pending else .idle } }

/-- The queue's transition relation. -/
inductive QStep : QState → QState → Prop where
  | config (m s : Bool) (st : QState) : QStep st (configStep m s st)
  | assign (st : QState) (i : ℕ)
      (hslot : st.slot = none)
      (hen : st.enableMatting = true ∨ st.enableStroke = true)
      (hfind : st.slices.findIdx (fun sl => sl.status == .pending) = i)
      (hi : i < st.slices.length) :
      QStep st (assignStep st i)
  | completeOk (st : QState) (o : Op) (res : ℕ) (l1 l2 : List Op)
      (hfl : st.inflight = l1 ++ o :: l2) (hm : o.mounted = true) :
      QStep st (completeOkStep st o res l1 l2)
  | completeFail (st : QState) (o : Op) (l1 l2 : List Op)
      (hfl : st.inflight = l1 ++ o :: l2) (hm : o.mounted = true) :
      QStep st (completeFailStep st o l1 l2)
  | completeDetached (st : QState) (o : Op) (l1 l2 : List Op)
      (hfl : st.inflight = l1 ++ o :: l2) (hm : o.mounted = false) :
      QStep st (completeDetachedStep st l1 l2)
  | edit (st : QState) (j : ℕ) : QStep st (editStep st j)

/-- Reachability under queue steps. -/
inductive QReach (init : QState) : QState → Prop where
  | refl : QReach init init
  | step {s t : QState} : QReach init s → QStep s t → QReach init t

/-- The freshly generated gallery: `n` slices, all `idle`, no processed
buffers, both features off, empty slot. -/
def mkInit (n : ℕ) : QState :=
  { slices := List.replicate n dSlice
    enableMatting := false
    enableStroke := false
    slot := none
    inflight := [] }

/-- Concrete queue state: 5 slices with slice 2 mid-processing (slices 0 and
1 already done), both features on, and slice 2's call in flight. -/
def qDemo : QState :=
  { slices := [{ processedSrc := some 1, status := .done },
               { processedSrc := some 2, status := .done },
               { processedSrc := none, status := .processing },
               { processedSrc := none, status := .pending },
               { processedSrc := none, status := .pending }]
    enableMatting := true
    enableStroke := true
    slot := some 2
    inflight := [{ idx := 2, mounted := true }] }

/-- Concrete queue state: slice 2 is reprocessing and still holds its
previously good processed buffer. -/
def qDemoBuf : QState :=
  { slices := [{ processedSrc := none, status := .pending },
               { processedSrc := none, status := .pending },
               { processedSrc := some 7, status := .processing },
               { processedSrc := none, status := .pending },
               { processedSrc := none, status := .pending }]
    enableMatting := true
    enableStroke := false
    slot := some 2
    inflight := [{ idx := 2, mounted := true }] }

/-- Queue invariant: a `processing` slice is exactly the one the slot points
at, a mounted in-flight call belongs to the slot, and at most one in-flight
call is mounted. -/
def QInv (st : QState) : Prop :=
  (∀ j, j < st.slices.length → (st.slices.getD j dSlice).status = .processing →
    st.slot = some j) ∧
  (∀ o ∈ st.inflight, o.mounted = true → st.slot = some o.idx) ∧
  st.inflight.countP (fun o => o.mounted) ≤ 1

/-- A trivial square-root interpretation, used where a concrete value for the
abstract `Math.sqrt` parameter is needed but never consulted. -/
def sqZero : ℚ → ℚ := fun _ => 0

/-- A trivial stroke-compositing interpretation, used where a concrete value
for the abstract shadow-stacking parameter is needed but never consulted. -/
def spxNil : Img → ProcessConfig → List Pixel := fun _ _ => []

/-- Concrete 1×1 test buffer: a single near-white opaque pixel. -/
def cImg : Img := { width := 1, height := 1, data := [{ r := 230, g := 230, b := 230, a := 255 }] }

/-- Concrete configuration: matting on, brightness filter, no stroke. -/
def cCfg : ProcessConfig :=
  { removeWhite := true, addStroke := false, strokeWidth := none,
    strokeColor := none, filter := some .brightness }

/-! ### Flood-fill invariants -/

theorem seedPush_inv {trav : ℕ → Bool} {st : List ℕ × (ℕ → Bool)} {idx : ℕ}
    (hq : ∀ i ∈ st.1, trav i = true) :
    ∀ i ∈ (seedPush trav st idx).1, trav i = true := by
  intro i hi
  by_cases h : trav idx = true
  · rw [seedPush, if_pos h] at hi
    rcases List.mem_append.1 hi with h1 | h1
    · exact hq i h1
    · rw [List.mem_singleton.1 h1]; exact h
  · rw [seedPush, if_neg h] at hi
    exact hq i hi

theorem seedPushChecked_inv {trav : ℕ → Bool} {st : List ℕ × (ℕ → Bool)}
    {idx : ℕ} (hq : ∀ i ∈ st.1, trav i = true) :
    ∀ i ∈ (seedPushChecked trav st idx).1, trav i = true := by
  intro i hi
  by_cases h : (!st.2 idx && trav idx) = true
  · rw [seedPushChecked, if_pos h] at hi
    rcases List.mem_append.1 hi with h1 | h1
    · exact hq i h1
    · rw [List.mem_singleton.1 h1]; exact (Bool.and_eq_true_iff.1 h).2
  · rw [seedPushChecked, if_neg h] at hi
    exact hq i hi

theorem bfsPush_inv {trav : ℕ → Bool} {size : ℕ} {st : List ℕ × (ℕ → Bool)}
    {n : ℕ} (hq : ∀ i ∈ st.1, trav i = true) :
    ∀ i ∈ (bfsPush trav size st n).1, trav i = true := by
  intro i hi
  by_cases h : (decide (n < size) && !st.2 n && trav n) = true
  · rw [bfsPush, if_pos h] at hi
    rcases List.mem_append.1 hi with h1 | h1
    · exact hq i h1
    · rw [List.mem_singleton.1 h1]; exact (Bool.and_eq_true_iff.1 h).2
  · rw [bfsPush, if_neg h] at hi
    exact hq i hi

theorem foldl_queue_inv {α : Type} (f : List ℕ × (ℕ → Bool) → α → List ℕ × (ℕ → Bool))
    (P : ℕ → Prop)
    (hf : ∀ st a, (∀ i ∈ st.1, P i) → ∀ i ∈ (f st a).1, P i) :
    ∀ (l : List α) (st : List ℕ × (ℕ → Bool)), (∀ i ∈ st.1, P i) →
      ∀ i ∈ (l.foldl f st).1, P i := by
  intro l
  induction l with
  | nil => intro st h; simpa using h
  | cons a l ih => intro st h; exact ih _ (hf st a h)

theorem seedTopBottom_inv (trav : ℕ → Bool) (w h : ℕ) :
    ∀ i ∈ (seedTopBottom trav w h).1, trav i = true := by
  refine foldl_queue_inv _ _ (fun st a hst => ?_) _ _ (by simp)
  exact seedPush_inv (seedPush_inv hst)

theorem seedLeftRight_inv (trav : ℕ → Bool) (w h : ℕ)
    (st0 : List ℕ × (ℕ → Bool)) (h0 : ∀ i ∈ st0.1, trav i = true) :
    ∀ i ∈ (seedLeftRight trav w h st0).1, trav i = true := by
  refine foldl_queue_inv _ _ (fun st a hst => ?_) _ _ h0
  exact seedPushChecked_inv (seedPushChecked_inv hst)

theorem bfsRun_inv (trav : ℕ → Bool) (w size : ℕ) :
    ∀ (fuel : ℕ) (q : List ℕ) (vis : ℕ → Bool),
      (∀ i ∈ q, trav i = true) → ∀ j ∈ bfsRun trav w size fuel q vis, trav j = true := by
  intro fuel
  induction fuel with
  | zero => intro q vis _ j hj; simp [bfsRun] at hj
  | succ n ih =>
      intro q vis h j hj
      cases q with
      | nil => simp [bfsRun] at hj
      | cons idx rest =>
          rw [bfsRun] at hj
          rcases List.mem_cons.1 hj with rfl | hj2
          · exact h j (List.mem_cons_self _ _)
          · exact ih _ _
              (foldl_queue_inv (bfsPush trav size) _ (fun st a hst => bfsPush_inv hst)
                (neighborList w idx) (rest, vis)
                (fun i hi => h i (List.mem_cons_of_mem _ hi))) j hj2

theorem floodCore_inv (trav : ℕ → Bool) (w h : ℕ) :
    ∀ j ∈ floodCore trav w h, trav j = true := by
  intro j hj
  exact bfsRun_inv trav w (w * h) _ _ _
    (seedLeftRight_inv trav w h _ (seedTopBottom_inv trav w h)) j hj

/-! ### Matting writes only alpha, and is idempotent -/

theorem travPixel_zeroAlpha (p : Pixel) : travPixel { p with a := 0 } = true := by
  rw [travPixel]
  exact if_pos (by norm_num)

theorem shouldVisit_zeroAlphaAt (S : List ℕ) (d : List Pixel)
    (hS : ∀ j ∈ S, shouldVisit d j = true) (i : ℕ) :
    shouldVisit (zeroAlphaAt S d) i = shouldVisit d i := by
  rw [shouldVisit, shouldVisit, List.getD_eq_getElem?_getD, List.getD_eq_getElem?_getD,
    zeroAlphaAt, List.getElem?_mapIdx]
  cases hd : d[i]? with
  | none => rfl
  | some p =>
      rw [Option.map_some', Option.getD_some, Option.getD_some]
      by_cases hc : S.contains i = true
      · rw [if_pos hc, travPixel_zeroAlpha]
        have hmem : i ∈ S := by simpa using hc
        have hvis := hS i hmem
        rw [shouldVisit, List.getD_eq_getElem?_getD, hd, Option.getD_some] at hvis
        exact hvis.symm
      · rw [if_neg hc]

theorem travOf_matData (d : List Pixel) (w h : ℕ) :
    travOf (matData d w h) = travOf d := by
  funext i
  exact shouldVisit_zeroAlphaAt _ _ (fun j hj => floodCore_inv (travOf d) w h j hj) i

theorem zeroAlphaAt_idem (S : List ℕ) (d : List Pixel) :
    zeroAlphaAt S (zeroAlphaAt S d) = zeroAlphaAt S d := by
  apply List.ext_getElem?
  intro i
  simp only [zeroAlphaAt, List.getElem?_mapIdx]
  cases d[i]? with
  | none => rfl
  | some p =>
      by_cases hc : S.contains i = true
      · simp only [if_pos hc, Option.map_some']
      · simp only [if_neg hc, Option.map_some']

/-- Shared helper: one matting pass fixes the buffer for further passes. -/
theorem matImage_idem (img : Img) : matImage (matImage img) = matImage img := by
  rw [matImage, matImage]
  refine congrArg _ ?_
  show matData (matData img.data img.width img.height) img.width img.height =
    matData img.data img.width img.height
  conv_lhs => rw [matData]
  rw [travOf_matData]
  exact zeroAlphaAt_idem _ _

/-- C7. Matting is idempotent: a second border-seeded flood-fill matting pass
on an already-matted buffer changes no pixel. The popped pixels of the first
pass keep their traversability (their alpha becomes 0, which is traversable),
and no other pixel changes, so the second pass pops the same set and zeroes
already-zero alphas. -/
theorem matting_idempotent (img : Img) : matImage (matImage img) = matImage img :=
  matImage_idem img

/-- C10. The matting pass writes only alpha bytes: output and input buffers
have the same dimensions and, pixel by pixel, identical R, G, B channels; a
pixel's alpha is either untouched or set to 0. -/
theorem matting_writes_only_alpha (img : Img) :
    (matImage img).width = img.width ∧ (matImage img).height = img.height ∧
      List.Forall₂
        (fun p q => q.r = p.r ∧ q.g = p.g ∧ q.b = p.b ∧ (q.a = p.a ∨ q.a = 0))
        img.data (matImage img).data := by
  refine ⟨rfl, rfl, ?_⟩
  rw [List.forall₂_iff_get]
  refine ⟨by simp [matImage, matData, zeroAlphaAt], fun i h1 h2 => ?_⟩
  have key : (matImage img).data.get ⟨i, h2⟩ =
      if (floodCore (travOf img.data) img.width img.height).contains i = true then
        { img.data.get ⟨i, h1⟩ with a := 0 }
      else img.data.get ⟨i, h1⟩ := by
    rw [List.get_eq_getElem, List.get_eq_getElem]
    show (List.mapIdx _ img.data)[i] = _
    rw [List.getElem_mapIdx]
  rw [key]
  by_cases hc : (floodCore (travOf img.data) img.width img.height).contains i = true
  · rw [if_pos hc]; exact ⟨rfl, rfl, rfl, Or.inr rfl⟩
  · rw [if_neg hc]; exact ⟨rfl, rfl, rfl, Or.inl rfl⟩

/-! ### Pipeline structure and dimensions -/

theorem applyFilter_width (sq : ℚ → ℚ) (f : FilterName) (img : Img) :
    (applyFilter sq f img).width = img.width := by
  cases f <;> rfl

theorem applyFilter_height (sq : ℚ → ℚ) (f : FilterName) (img : Img) :
    (applyFilter sq f img).height = img.height := by
  cases f <;> rfl

theorem matStage_width (cfg : ProcessConfig) (c : Img) :
    (matStage cfg c).width = c.width := by
  rw [matStage]; split <;> rfl

theorem matStage_height (cfg : ProcessConfig) (c : Img) :
    (matStage cfg c).height = c.height := by
  rw [matStage]; split <;> rfl

theorem filterStage_width (sq : ℚ → ℚ) (cfg : ProcessConfig) (c : Img) :
    (filterStage sq cfg c).width = c.width := by
  rw [filterStage]
  cases cfg.filter with
  | some f => exact applyFilter_width sq f c
  | none => rfl

theorem filterStage_height (sq : ℚ → ℚ) (cfg : ProcessConfig) (c : Img) :
    (filterStage sq cfg c).height = c.height := by
  rw [filterStage]
  cases cfg.filter with
  | some f => exact applyFilter_height sq f c
  | none => rfl

theorem strokeStageIf_width (spx : Img → ProcessConfig → List Pixel)
    (cfg : ProcessConfig) (c : Img) : (strokeStageIf spx cfg c).width = c.width := by
  rw [strokeStageIf]; split <;> rfl

theorem strokeStageIf_height (spx : Img → ProcessConfig → List Pixel)
    (cfg : ProcessConfig) (c : Img) : (strokeStageIf spx cfg c).height = c.height := by
  rw [strokeStageIf]; split <;> rfl

/-- `processImage` is exactly the stage chain pad → mat → filter → mat →
stroke. -/
theorem processImage_eq_stages (sq : ℚ → ℚ)
    (spx : Img → ProcessConfig → List Pixel) (img : Img) (cfg : ProcessConfig) :
    processImage sq spx img cfg =
      strokeStageIf spx cfg (matStage cfg (filterStage sq cfg
        (matStage cfg (padImage img (paddingOf cfg))))) := rfl

theorem processImage_width (sq : ℚ → ℚ) (spx : Img → ProcessConfig → List Pixel)
    (img : Img) (cfg : ProcessConfig) :
    (processImage sq spx img cfg).width = img.width + 2 * paddingOf cfg := by
  rw [processImage_eq_stages, strokeStageIf_width, matStage_width, filterStage_width,
    matStage_width]
  rfl

theorem processImage_height (sq : ℚ → ℚ) (spx : Img → ProcessConfig → List Pixel)
    (img : Img) (cfg : ProcessConfig) :
    (processImage sq spx img cfg).height = img.height + 2 * paddingOf cfg := by
  rw [processImage_eq_stages, strokeStageIf_height, matStage_height, filterStage_height,
    matStage_height]
  rfl

/-- C6. When stroke is enabled with a configured width `k ≥ 1`, the output
dimensions are the input's plus `2*(k*2+4)` on each axis; when stroke is
disabled the output dimensions equal the input's. -/
theorem stroke_output_dims (sq : ℚ → ℚ) (spx : Img → ProcessConfig → List Pixel)
    (img : Img) (cfg : ProcessConfig) :
    (cfg.addStroke = true → ∀ k : ℕ, cfg.strokeWidth = some k → 1 ≤ k →
        (processImage sq spx img cfg).width = img.width + 2 * (k * 2 + 4) ∧
        (processImage sq spx img cfg).height = img.height + 2 * (k * 2 + 4)) ∧
    (cfg.addStroke = false →
        (processImage sq spx img cfg).width = img.width ∧
        (processImage sq spx img cfg).height = img.height) := by
  constructor
  · intro hs k hk h1
    have hpad : paddingOf cfg = k * 2 + 4 := by
      rw [paddingOf, if_pos hs, strokeWval, rawStrokeW, hk]
      show (if k = 0 then 6 else k) * 2 + 4 = k * 2 + 4
      rw [if_neg (Nat.one_le_iff_ne_zero.1 h1)]
    rw [processImage_width, processImage_height, hpad]
    exact ⟨rfl, rfl⟩
  · intro hs
    have hpad : paddingOf cfg = 0 := by rw [paddingOf, hs]; rfl
    rw [processImage_width, processImage_height, hpad]
    omega

/-- Witness for C6 at a concrete 1×1 buffer and stroke width 5. -/
theorem stroke_output_dims_witness :
    (processImage (fun _ => 0) (fun _ _ => [])
        { width := 1, height := 1, data := [{ r := 0, g := 0, b := 0, a := 0 }] }
        { removeWhite := false, addStroke := true, strokeWidth := some 5,
          strokeColor := none, filter := none }).width = 1 + 2 * (5 * 2 + 4) ∧
    (processImage (fun _ => 0) (fun _ _ => [])
        { width := 1, height := 1, data := [{ r := 0, g := 0, b := 0, a := 0 }] }
        { removeWhite := false, addStroke := true, strokeWidth := some 5,
          strokeColor := none, filter := none }).height = 1 + 2 * (5 * 2 + 4) :=
  (stroke_output_dims _ _ _ _).1 rfl 5 rfl (by norm_num)

/-! ### Filters: transparent pixels and gray pixels -/

theorem u8_natCast (n : ℕ) (h : n ≤ 255) : u8 (n : ℚ) = n := by
  rw [u8]
  by_cases h0 : (n : ℚ) ≤ 0
  · have hn : n = 0 := by exact_mod_cast le_antisymm (by exact_mod_cast h0) (Nat.zero_le n)
    rw [if_pos h0, hn]
  · rw [if_neg h0]
    by_cases h255 : (255 : ℚ) ≤ (n : ℚ)
    · have hn : n = 255 := le_antisymm h (by exact_mod_cast h255)
      rw [if_pos h255, hn]
    · rw [if_neg h255, Int.floor_natCast]
      have hz : (n : ℚ) - ((n : ℤ) : ℚ) = 0 := by push_cast; ring
      rw [hz, if_pos (by norm_num)]
      exact Int.toNat_natCast n

theorem map_getD_pixel {g : Pixel → Pixel} {d : List Pixel} {i : ℕ}
    (hi : i < d.length) :
    (d.map g).getD i oobPixel = g (d.getD i oobPixel) := by
  rw [List.getD_eq_getElem?_getD, List.getD_eq_getElem?_getD, List.getElem?_map,
    List.getElem?_eq_getElem hi]
  rfl

theorem mapIdx_getD_pixel {g : ℕ → Pixel → Pixel} {d : List Pixel} {i : ℕ}
    (hi : i < d.length) :
    (d.mapIdx g).getD i oobPixel = g i (d.getD i oobPixel) := by
  rw [List.getD_eq_getElem?_getD, List.getD_eq_getElem?_getD, List.getElem?_mapIdx,
    List.getElem?_eq_getElem hi]
  rfl

/-- C9. Every named filter leaves a pixel with alpha 0 entirely unchanged (in
particular its R, G, B channels), and `grayscale` leaves any non-transparent
pixel with equal 8-bit channels unchanged. -/
theorem filters_transparent_and_gray (sq : ℚ → ℚ) :
    (∀ (f : FilterName) (img : Img) (i : ℕ), i < img.data.length →
        (img.data.getD i oobPixel).a = 0 →
        (applyFilter sq f img).data.getD i oobPixel = img.data.getD i oobPixel) ∧
    (∀ p : Pixel, p.a ≠ 0 → p.r = p.g → p.g = p.b → p.r ≤ 255 →
        grayscalePixel p = p) := by
  constructor
  · intro f img i hi ha
    cases f with
    | grayscale =>
        show (img.data.map grayscalePixel).getD i oobPixel = _
        rw [map_getD_pixel hi, grayscalePixel, if_pos ha]
    | sepia =>
        show (img.data.map sepiaPixel).getD i oobPixel = _
        rw [map_getD_pixel hi, sepiaPixel, if_pos ha]
    | brightness =>
        show (img.data.map brightnessPixel).getD i oobPixel = _
        rw [map_getD_pixel hi, brightnessPixel, if_pos ha]
    | vibrant =>
        show (img.data.map vibrantPixel).getD i oobPixel = _
        rw [map_getD_pixel hi, vibrantPixel, if_pos ha]
    | cinematic =>
        show (((img.data.map cinematicPass1).map cinematicPass2).mapIdx _).getD i
            oobPixel = _
        have hi1 : i < (img.data.map cinematicPass1).length := by simpa using hi
        have hi2 : i < ((img.data.map cinematicPass1).map cinematicPass2).length := by
          simpa using hi
        rw [mapIdx_getD_pixel hi2, map_getD_pixel hi1, map_getD_pixel hi,
          cinematicPass1, if_pos ha]
        rw [cinematicPass2, if_pos ha, cinematicPass3, if_pos ha]
    | japanese =>
        show (img.data.map japanesePixel).getD i oobPixel = _
        rw [map_getD_pixel hi, japanesePixel, if_pos ha]
    | warm =>
        show (img.data.map warmPixel).getD i oobPixel = _
        rw [map_getD_pixel hi, warmPixel, if_pos ha]
  · intro p ha hrg hgb h255
    obtain ⟨r, g, b, a⟩ := p
    simp only at ha hrg hgb h255
    subst hrg
    subst hgb
    rw [grayscalePixel, if_neg ha]
    have hgy : (r : ℚ) * (299/1000) + (r : ℚ) * (587/1000) + (r : ℚ) * (114/1000) =
        (r : ℚ) := by ring
    simp only
    rw [hgy, u8_natCast r h255]

/-- Witness for C9: the `warm` filter on a transparent pixel, and `grayscale`
on an opaque gray pixel. -/
theorem filters_transparent_and_gray_witness :
    (applyFilter (fun _ => 0) .warm
        { width := 1, height := 1, data := [{ r := 5, g := 6, b := 7, a := 0 }] }).data.getD
        0 oobPixel =
      ({ width := 1, height := 1,
         data := [{ r := 5, g := 6, b := 7, a := 0 }] } : Img).data.getD 0 oobPixel ∧
    grayscalePixel { r := 9, g := 9, b := 9, a := 255 } =
      { r := 9, g := 9, b := 9, a := 255 } :=
  ⟨(filters_transparent_and_gray (fun _ => 0)).1 .warm _ 0 (by decide) (by decide),
   (filters_transparent_and_gray (fun _ => 0)).2 _ (by decide) rfl rfl (by decide)⟩

/-! ### The pipeline order -/

/-- `specOrderedPipeline` as the stage chain pad → mat → filter → stroke. -/
theorem specOrderedPipeline_eq_stages (sq : ℚ → ℚ)
    (spx : Img → ProcessConfig → List Pixel) (img : Img) (cfg : ProcessConfig) :
    specOrderedPipeline sq spx img cfg =
      strokeStageIf spx cfg (filterStage sq cfg
        (matStage cfg (padImage img (paddingOf cfg)))) := rfl

theorem filterStage_none (sq : ℚ → ℚ) (cfg : ProcessConfig) (c : Img)
    (hf : cfg.filter = none) : filterStage sq cfg c = c := by
  rw [filterStage, hf]

theorem matStage_idem (cfg : ProcessConfig) (c : Img) :
    matStage cfg (matStage cfg c) = matStage cfg c := by
  by_cases h : cfg.removeWhite = true
  · simp only [matStage, if_pos h]
    exact matImage_idem c
  · simp only [matStage, if_neg h]

/-- C1 (amended). `processImage` applies matting (when `removeWhite`), then
the named filter (when set), then a second matting pass (when `removeWhite`),
then stroke synthesis (when `addStroke`); when no filter is set, the second
matting pass collapses by idempotence and the result coincides with the
spec's matting → filter → stroke order. -/
theorem pipeline_order (sq : ℚ → ℚ) (spx : Img → ProcessConfig → List Pixel)
    (img : Img) (cfg : ProcessConfig) :
    processImage sq spx img cfg =
      strokeStageIf spx cfg (matStage cfg (filterStage sq cfg
        (matStage cfg (padImage img (paddingOf cfg))))) ∧
    (cfg.filter = none →
      processImage sq spx img cfg = specOrderedPipeline sq spx img cfg) := by
  refine ⟨processImage_eq_stages sq spx img cfg, fun hf => ?_⟩
  rw [processImage_eq_stages, specOrderedPipeline_eq_stages,
    filterStage_none sq cfg _ hf, matStage_idem]

/-- Witness for C1 (amended): with no filter configured, the code pipeline
and the spec-ordered pipeline agree on the concrete test buffer. -/
theorem pipeline_order_witness :
    processImage sqZero spxNil cImg
        { removeWhite := true, addStroke := false, strokeWidth := none,
          strokeColor := none, filter := none } =
      specOrderedPipeline sqZero spxNil cImg
        { removeWhite := true, addStroke := false, strokeWidth := none,
          strokeColor := none, filter := none } :=
  (pipeline_order sqZero spxNil cImg _).2 rfl

/-- C1 is false as stated: with matting on and the `brightness` filter set,
the second flood-fill pass (run after the filter) removes a pixel that the
filter pushed into the near-white range, so the result differs from the
spec's fixed matting → filter → stroke order. On the 1×1 buffer holding
(230,230,230,255), the spec order yields (255,255,255,255) but the code
yields (255,255,255,0). -/
theorem pipeline_order_counterexample :
    specOrderedPipeline sqZero spxNil cImg cCfg ≠
      processImage sqZero spxNil cImg cCfg := by
  have hb1 : brightnessPixel { r := 230, g := 230, b := 230, a := 255 } =
      { r := 255, g := 255, b := 255, a := 255 } := by
    rw [brightnessPixel, if_neg (by norm_num)]
    have hm : min (255 : ℚ) (((230 : ℕ) : ℚ) + 30) = 255 := by push_cast; norm_num
    have h255 : u8 (255 : ℚ) = 255 := by
      rw [u8, if_neg (by norm_num), if_pos (by norm_num)]
    show ({ r := u8 (min 255 (((230 : ℕ) : ℚ) + 30)),
            g := u8 (min 255 (((230 : ℕ) : ℚ) + 30)),
            b := u8 (min 255 (((230 : ℕ) : ℚ) + 30)), a := 255 } : Pixel) = _
    rw [hm, h255]
  have hfilter : applyFilter sqZero .brightness cImg =
      { width := 1, height := 1, data := [{ r := 255, g := 255, b := 255, a := 255 }] } := by
    show ({ width := 1, height := 1,
            data := [brightnessPixel { r := 230, g := 230, b := 230, a := 255 }] } : Img) = _
    rw [hb1]
  have hmat0 : matImage (padImage cImg (paddingOf cCfg)) = cImg := by decide
  have hspec : specOrderedPipeline sqZero spxNil cImg cCfg =
      { width := 1, height := 1, data := [{ r := 255, g := 255, b := 255, a := 255 }] } := by
    show applyFilter sqZero .brightness (matImage (padImage cImg (paddingOf cCfg))) = _
    rw [hmat0, hfilter]
  have hcode : processImage sqZero spxNil cImg cCfg =
      matImage { width := 1, height := 1, data := [{ r := 255, g := 255, b := 255, a := 255 }] } := by
    show matImage (applyFilter sqZero .brightness (matImage (padImage cImg (paddingOf cCfg)))) = _
    rw [hmat0, hfilter]
  have hmat1 : matImage
      { width := 1, height := 1, data := [{ r := 255, g := 255, b := 255, a := 255 }] } =
      { width := 1, height := 1, data := [{ r := 255, g := 255, b := 255, a := 0 }] } := by
    decide
  rw [hspec, hcode, hmat1]
  decide

/-! ### The slice processing queue -/

theorem getD_set_self_slice {l : List SliceItem} {i : ℕ} {a : SliceItem}
    (h : i < l.length) : (l.set i a).getD i dSlice = a := by
  rw [List.getD_eq_getElem?_getD, List.getElem?_set_self h]
  rfl

theorem getD_set_ne_slice {l : List SliceItem} {i j : ℕ} {a : SliceItem}
    (h : i ≠ j) : (l.set i a).getD j dSlice = l.getD j dSlice := by
  rw [List.getD_eq_getElem?_getD, List.getD_eq_getElem?_getD, List.getElem?_set_ne h]

theorem configStep_status (m s : Bool) (st : QState) (j : ℕ) :
    ((configStep m s st).slices.getD j dSlice).status ≠ .processing := by
  rw [configStep]
  by_cases hms : (!m && !s) = true
  · rw [if_pos hms]
    show (((st.slices.map _).getD j dSlice)).status ≠ _
    rw [List.getD_eq_getElem?_getD, List.getElem?_map]
    cases st.slices[j]? with
    | none => exact fun h => SliceStatus.noConfusion h
    | some sl => exact fun h => SliceStatus.noConfusion h
  · rw [if_neg hms]
    show (((st.slices.map _).getD j dSlice)).status ≠ _
    rw [List.getD_eq_getElem?_getD, List.getElem?_map]
    cases st.slices[j]? with
    | none => exact fun h => SliceStatus.noConfusion h
    | some sl => exact fun h => SliceStatus.noConfusion h

theorem configStep_all_pending (m s : Bool) (st : QState)
    (hms : (m || s) = true) (j : ℕ) (hj : j < st.slices.length) :
    ((configStep m s st).slices.getD j dSlice).status = .pending := by
  have hneg : ¬(!m && !s) = true := by cases m <;> cases s <;> simp_all
  rw [configStep, if_neg hneg]
  show ((st.slices.map _).getD j dSlice).status = _
  rw [List.getD_eq_getElem?_getD, List.getElem?_map, List.getElem?_eq_getElem hj]
  rfl

theorem qinv_config (m s : Bool) (st : QState) : QInv (configStep m s st) := by
  have hinf : (configStep m s st).inflight = st.inflight.map detachOp := by
    rw [configStep]; split <;> rfl
  refine ⟨fun j hj hp => absurd hp (configStep_status m s st j), ?_, ?_⟩
  · intro o ho hm
    rw [hinf] at ho
    rcases List.mem_map.1 ho with ⟨o2, _, rfl⟩
    exact absurd hm (by simp [detachOp])
  · rw [hinf, List.countP_map]
    have h0 : st.inflight.countP ((fun o => o.mounted) ∘ detachOp) = 0 :=
      List.countP_eq_zero.2 (fun a _ => by simp [Function.comp, detachOp])
    rw [h0]
    omega

theorem qinv_assign (st : QState) (i : ℕ) (hslot : st.slot = none)
    (hinv : QInv st) : QInv (assignStep st i) := by
  obtain ⟨h1, h2, h3⟩ := hinv
  have hnop : ∀ j, j < st.slices.length →
      (st.slices.getD j dSlice).status ≠ .processing := by
    intro j hj hp
    exact Option.noConfusion (hslot ▸ h1 j hj hp)
  have hnomount : ∀ o ∈ st.inflight, o.mounted = false := by
    intro o ho
    cases hmo : o.mounted with
    | false => rfl
    | true => exact Option.noConfusion (hslot ▸ h2 o ho hmo)
  refine ⟨?_, ?_, ?_⟩
  · intro j hj hp
    show (some i : Option ℕ) = some j
    by_cases hij : i = j
    · rw [hij]
    · exfalso
      simp only [assignStep] at hp hj
      rw [getD_set_ne_slice hij] at hp
      exact hnop j (by simpa using hj) hp
  · intro o ho hm
    simp only [assignStep] at ho ⊢
    rcases List.mem_append.1 ho with ho1 | ho1
    · rw [hnomount o ho1] at hm; cases hm
    · rcases List.mem_singleton.1 ho1 with rfl
      rfl
  · show (st.inflight ++ [({ idx := i, mounted := true } : Op)]).countP
      (fun o => o.mounted) ≤ 1
    rw [List.countP_append]
    have h0 : st.inflight.countP (fun o => o.mounted) = 0 :=
      List.countP_eq_zero.2 (fun o ho => by rw [hnomount o ho]; simp)
    rw [h0]
    simp

theorem qinv_complete_aux (st : QState) (o : Op) (l1 l2 : List Op)
    (hfl : st.inflight = l1 ++ o :: l2) (hm : o.mounted = true)
    (hinv : QInv st) (a : SliceItem) (ha : a.status ≠ .processing) :
    QInv { st with
      slices := st.slices.set o.idx a
      slot := none
      inflight := l1 ++ l2 } := by
  obtain ⟨h1, h2, h3⟩ := hinv
  have hcount : (l1 ++ l2).countP (fun o2 => o2.mounted) = 0 := by
    rw [hfl, List.countP_append, List.countP_cons, hm, if_pos rfl] at h3
    rw [List.countP_append]
    omega
  refine ⟨?_, ?_, ?_⟩
  · intro j hj hp
    exfalso
    have hj2 : j < st.slices.length := by simpa using hj
    have hp2 : ((st.slices.set o.idx a).getD j dSlice).status = .processing := hp
    by_cases hij : o.idx = j
    · rw [← hij] at hp2
      rw [getD_set_self_slice (hij ▸ hj2)] at hp2
      exact ha hp2
    · rw [getD_set_ne_slice hij] at hp2
      have hsl := h1 j hj2 hp2
      have hslo := h2 o
        (by rw [hfl]; exact List.mem_append_right _ (List.mem_cons_self _ _)) hm
      rw [hsl] at hslo
      exact hij (Option.some.inj hslo).symm
  · intro o2 ho2 hm2
    exfalso
    have hno := List.countP_eq_zero.1 hcount o2 ho2
    rw [hm2] at hno
    exact hno rfl
  · show (l1 ++ l2).countP _ ≤ 1
    rw [hcount]
    omega

theorem qinv_step {s1 t1 : QState} (h : QStep s1 t1) (hinv : QInv s1) : QInv t1 := by
  cases h with
  | config m b _ => exact qinv_config m b s1
  | assign _ i hslot hen hfind hi => exact qinv_assign s1 i hslot hinv
  | completeOk _ o res l1 l2 hfl hm =>
      refine qinv_complete_aux s1 o l1 l2 hfl hm hinv _ ?_
      exact fun h => SliceStatus.noConfusion h
  | completeFail _ o l1 l2 hfl hm =>
      refine qinv_complete_aux s1 o l1 l2 hfl hm hinv _ ?_
      exact fun h => SliceStatus.noConfusion h
  | completeDetached _ o l1 l2 hfl hm =>
      obtain ⟨h1, h2, h3⟩ := hinv
      refine ⟨h1, ?_, ?_⟩
      · intro o2 ho2 hm2
        rcases List.mem_append.1 ho2 with hh | hh
        · exact h2 o2 (by rw [hfl]; exact List.mem_append_left _ hh) hm2
        · exact h2 o2
            (by rw [hfl]; exact List.mem_append_right _ (List.mem_cons_of_mem _ hh)) hm2
      · show (l1 ++ l2).countP _ ≤ 1
        rw [hfl, List.countP_append, List.countP_cons, hm,
          if_neg Bool.false_ne_true] at h3
        rw [List.countP_append]
        omega
  | edit _ j =>
      obtain ⟨h1, h2, h3⟩ := hinv
      refine ⟨?_, h2, h3⟩
      intro k hk hp
      have hk2 : k < s1.slices.length := by simpa [editStep] using hk
      have hp2 : ((s1.slices.set j
          { s1.slices.getD j dSlice with
            status := if s1.enableMatting || s1.enableStroke then .pending
              else .idle }).getD k dSlice).status = .processing := hp
      show s1.slot = some k
      by_cases hjk : j = k
      · subst hjk
        by_cases hlen : j < s1.slices.length
        · rw [getD_set_self_slice hlen] at hp2
          exfalso
          cases henb : (s1.enableMatting || s1.enableStroke) <;>
            simp [henb] at hp2
        · rw [List.set_eq_of_length_le (le_of_not_lt hlen)] at hp2
          exact h1 j hk2 hp2
      · rw [getD_set_ne_slice hjk] at hp2
        exact h1 k hk2 hp2

theorem qinv_mkInit (n : ℕ) : QInv (mkInit n) := by
  refine ⟨?_, ?_, ?_⟩
  · intro j hj hp
    have hp2 : ((List.replicate n dSlice).getD j dSlice).status = .processing := hp
    rw [List.getD_eq_getElem?_getD, List.getElem?_replicate] at hp2
    by_cases hjn : j < n
    · rw [if_pos hjn] at hp2
      exact absurd hp2 (by decide)
    · rw [if_neg hjn] at hp2
      exact absurd hp2 (by decide)
  · intro o ho
    cases ho
  · show ([] : List Op).countP _ ≤ 1
    simp

theorem qinv_reach {init st : QState} (h0 : QInv init) (h : QReach init st) :
    QInv st := by
  induction h with
  | refl => exact h0
  | step hr hstep ih => exact qinv_step hstep ih

/-- C8. With 5 slices all idle, enabling matting resets all 5 to `pending`;
any step out of that state that makes a slice `processing` makes it slice 0
(the finder picks the lowest pending index, and only the finder/processor
step creates a `processing` slice); and in every state reachable from the
fresh gallery, at most one slice is `processing`. -/
theorem queue_five_slices_scenario :
    (configStep true false (mkInit 5)).slices =
      List.replicate 5 { processedSrc := none, status := SliceStatus.pending } ∧
    (∀ t, QStep (configStep true false (mkInit 5)) t →
      ∀ j, (t.slices.getD j dSlice).status = .processing → j = 0) ∧
    (∀ t, QReach (mkInit 5) t → ∀ j k, j < t.slices.length → k < t.slices.length →
      (t.slices.getD j dSlice).status = .processing →
      (t.slices.getD k dSlice).status = .processing → j = k) := by
  refine ⟨by decide, ?_, ?_⟩
  · intro t hstep j hj
    cases hstep with
    | config m b _ => exact absurd hj (configStep_status m b _ j)
    | assign _ i hslot hen hfind hi =>
        have hi0 : i = 0 := by rw [← hfind]; decide
        subst hi0
        by_cases hj0 : j = 0
        · exact hj0
        · exfalso
          have hj2 : ((((configStep true false (mkInit 5)).slices.set 0
              { (configStep true false (mkInit 5)).slices.getD 0 dSlice with
                status := .processing }).getD j dSlice)).status = .processing := hj
          rw [getD_set_ne_slice (fun h => hj0 h.symm)] at hj2
          exact configStep_status true false (mkInit 5) j hj2
    | completeOk _ o res l1 l2 hfl hm =>
        exfalso
        have h0 : l1 ++ o :: l2 = ([] : List Op) := hfl.symm
        simp at h0
    | completeFail _ o l1 l2 hfl hm =>
        exfalso
        have h0 : l1 ++ o :: l2 = ([] : List Op) := hfl.symm
        simp at h0
    | completeDetached _ o l1 l2 hfl hm =>
        exfalso
        have h0 : l1 ++ o :: l2 = ([] : List Op) := hfl.symm
        simp at h0
    | edit _ j2 =>
        exfalso
        have hj3 : ((((configStep true false (mkInit 5)).slices.set j2
            { (configStep true false (mkInit 5)).slices.getD j2 dSlice with
              status := if (configStep true false (mkInit 5)).enableMatting ||
                  (configStep true false (mkInit 5)).enableStroke then .pending
                else .idle }).getD j dSlice)).status = .processing := hj
        by_cases hjj : j2 = j
        · subst hjj
          by_cases hlen : j2 < (configStep true false (mkInit 5)).slices.length
          · rw [getD_set_self_slice hlen] at hj3
            exact SliceStatus.noConfusion hj3
          · rw [List.set_eq_of_length_le (le_of_not_lt hlen)] at hj3
            exact configStep_status true false (mkInit 5) j2 hj3
        · rw [getD_set_ne_slice hjj] at hj3
          exact configStep_status true false (mkInit 5) j hj3
  · intro t hreach j k hj hk hpj hpk
    have hinv := qinv_reach (qinv_mkInit 5) hreach
    have e1 := hinv.1 j hj hpj
    have e2 := hinv.1 k hk hpk
    rw [e1] at e2
    exact Option.some.inj e2

/-- Witness for C8: the assign step out of the all-pending state marks slice
0 `processing`, and the resulting reachable state has a unique `processing`
index. -/
theorem queue_five_slices_scenario_witness : (0 : ℕ) = 0 ∧ (0 : ℕ) = 0 :=
  ⟨queue_five_slices_scenario.2.1 (assignStep (configStep true false (mkInit 5)) 0)
      (QStep.assign _ 0 rfl (Or.inl rfl) (by decide) (by decide)) 0 (by decide),
   queue_five_slices_scenario.2.2 (assignStep (configStep true false (mkInit 5)) 0)
      (QReach.step (QReach.step QReach.refl (QStep.config true false (mkInit 5)))
        (QStep.assign _ 0 rfl (Or.inl rfl) (by decide) (by decide)))
      0 0 (by decide) (by decide) (by decide) (by decide)⟩

/-- C3 (amended). A config change while a slice's call is in flight
immediately resets every slice — the processing one included — to `pending`
and detaches the in-flight call; when the detached call later completes it
writes nothing, so the slices (all `pending`) and the empty slot are
untouched by the completion. -/
theorem config_change_during_processing (st : QState) (m s : Bool)
    (hms : (m || s) = true) (l1 l2 : List Op) (o : Op)
    (hfl : st.inflight = l1 ++ o :: l2) :
    (∀ j, j < st.slices.length →
      ((configStep m s st).slices.getD j dSlice).status = .pending) ∧
    (configStep m s st).inflight =
      l1.map detachOp ++ detachOp o :: l2.map detachOp ∧
    QStep (configStep m s st)
      (completeDetachedStep (configStep m s st) (l1.map detachOp) (l2.map detachOp)) ∧
    (completeDetachedStep (configStep m s st) (l1.map detachOp)
        (l2.map detachOp)).slices = (configStep m s st).slices ∧
    (completeDetachedStep (configStep m s st) (l1.map detachOp)
        (l2.map detachOp)).slot = (configStep m s st).slot := by
  have hinf : (configStep m s st).inflight =
      l1.map detachOp ++ detachOp o :: l2.map detachOp := by
    have h : (configStep m s st).inflight = st.inflight.map detachOp := by
      rw [configStep]; split <;> rfl
    rw [h, hfl, List.map_append, List.map_cons]
  refine ⟨fun j hj => configStep_all_pending m s st hms j hj, hinf, ?_, rfl, rfl⟩
  exact QStep.completeDetached (configStep m s st) (detachOp o)
    (l1.map detachOp) (l2.map detachOp) hinf rfl

/-- Witness for C3 (amended) on the concrete mid-processing state. -/
theorem config_change_during_processing_witness :
    (∀ j, j < qDemo.slices.length →
      ((configStep true true qDemo).slices.getD j dSlice).status = .pending) ∧
    (configStep true true qDemo).inflight =
      List.map detachOp [] ++
        detachOp { idx := 2, mounted := true } :: List.map detachOp [] ∧
    QStep (configStep true true qDemo)
      (completeDetachedStep (configStep true true qDemo)
        (List.map detachOp []) (List.map detachOp [])) ∧
    (completeDetachedStep (configStep true true qDemo)
        (List.map detachOp []) (List.map detachOp [])).slices =
      (configStep true true qDemo).slices ∧
    (completeDetachedStep (configStep true true qDemo)
        (List.map detachOp []) (List.map detachOp [])).slot =
      (configStep true true qDemo).slot :=
  config_change_during_processing qDemo true true rfl [] []
    { idx := 2, mounted := true } rfl

/-- C3 is false as stated: changing the configuration while slice 2 is
`processing` alters slice 2's status at once — it becomes `pending` while its
operation is still in flight (the config-change effect resets every slice and
releases the slot before the in-flight call resolves). -/
theorem config_change_during_processing_counterexample :
    (qDemo.slices.getD 2 dSlice).status = .processing ∧
    (configStep true true qDemo).inflight ≠ [] ∧
    ((configStep true true qDemo).slices.getD 2 dSlice).status ≠ .processing ∧
    ((configStep true true qDemo).slices.getD 2 dSlice).status = .pending := by
  exact ⟨by decide, by decide, by decide, by decide⟩

/-- C4 (amended). When a mounted in-flight call fails, its slice reverts to
`idle`; the slice's `processedSrc` field is not written (a previously good
processed buffer stays untouched, a slice that had none still has none);
every other slice is unchanged; and the slot is released so the queue
continues. -/
theorem slice_failure_recovery (st : QState) (o : Op) (l1 l2 : List Op)
    (hfl : st.inflight = l1 ++ o :: l2) (hm : o.mounted = true)
    (hidx : o.idx < st.slices.length) :
    QStep st (completeFailStep st o l1 l2) ∧
    ((completeFailStep st o l1 l2).slices.getD o.idx dSlice).status = .idle ∧
    ((completeFailStep st o l1 l2).slices.getD o.idx dSlice).processedSrc =
      (st.slices.getD o.idx dSlice).processedSrc ∧
    (∀ j, j ≠ o.idx → (completeFailStep st o l1 l2).slices.getD j dSlice =
      st.slices.getD j dSlice) ∧
    (completeFailStep st o l1 l2).slot = none := by
  have hset : (completeFailStep st o l1 l2).slices =
      st.slices.set o.idx { st.slices.getD o.idx dSlice with status := .idle } := rfl
  refine ⟨QStep.completeFail st o l1 l2 hfl hm, ?_, ?_, ?_, rfl⟩
  · rw [hset, getD_set_self_slice hidx]
  · rw [hset, getD_set_self_slice hidx]
  · intro j hj
    rw [hset, getD_set_ne_slice (fun h => hj h.symm)]

/-- Witness for C4 (amended) on the concrete mid-processing state. -/
theorem slice_failure_recovery_witness :
    ((completeFailStep qDemo { idx := 2, mounted := true } [] []).slices.getD 2
        dSlice).status = .idle ∧
    ((completeFailStep qDemo { idx := 2, mounted := true } [] []).slices.getD 2
        dSlice).processedSrc = (qDemo.slices.getD 2 dSlice).processedSrc :=
  ⟨(slice_failure_recovery qDemo { idx := 2, mounted := true } [] [] rfl rfl
      (by decide)).2.1,
   (slice_failure_recovery qDemo { idx := 2, mounted := true } [] [] rfl rfl
      (by decide)).2.2.1⟩

/-- C4 is false as stated: a failing slice does not end with "no processed
buffer" — the failure handler writes only the status, so a previously good
`processedSrc` (here token 7) survives on the now-`idle` slice. -/
theorem slice_failure_recovery_counterexample :
    QStep qDemoBuf (completeFailStep qDemoBuf { idx := 2, mounted := true } [] []) ∧
    ((completeFailStep qDemoBuf { idx := 2, mounted := true } [] []).slices.getD 2
        dSlice).status = .idle ∧
    ((completeFailStep qDemoBuf { idx := 2, mounted := true } [] []).slices.getD 2
        dSlice).processedSrc ≠ none :=
  ⟨QStep.completeFail qDemoBuf { idx := 2, mounted := true } [] [] rfl rfl,
   by decide, by decide⟩

/-! ### Geometry: cut positions -/

theorem mergeSort_sorted_eval {l : List ℚ}
    (h : List.Pairwise (fun a b : ℚ => decide (a ≤ b) = true) l) :
    l.mergeSort (fun a b => decide (a ≤ b)) = l :=
  List.mergeSort_of_sorted h

theorem cutPositions_sorted (len : ℚ) (lines : List ℚ) :
    (cutPositions len lines).Pairwise (fun a b : ℚ => a ≤ b) := by
  have h : ((0 :: lines.map (fun p => p / 100 * len) ++ [len]).mergeSort
      (fun a b : ℚ => decide (a ≤ b))).Pairwise
        (fun a b : ℚ => decide (a ≤ b) = true) :=
    List.sorted_mergeSort
      (fun a b c hab hbc => by
        simp only [decide_eq_true_eq] at hab hbc ⊢
        exact le_trans hab hbc)
      (fun a b => by
        simp only [Bool.or_eq_true, decide_eq_true_eq]
        exact le_total a b)
      (0 :: lines.map (fun p => p / 100 * len) ++ [len])
  exact h.imp (fun hab => by simpa using hab)

theorem cutPositions_length (len : ℚ) (lines : List ℚ) :
    (cutPositions len lines).length = lines.length + 2 := by
  rw [cutPositions, (List.mergeSort_perm _ _).length_eq]
  simp

theorem cutPositions_mem_zero (len : ℚ) (lines : List ℚ) :
    (0 : ℚ) ∈ cutPositions len lines := by
  rw [cutPositions]
  exact (List.mergeSort_perm _ _).mem_iff.2 (List.mem_cons_self _ _)

theorem cutPositions_mem_len (len : ℚ) (lines : List ℚ) :
    len ∈ cutPositions len lines := by
  rw [cutPositions]
  exact (List.mergeSort_perm _ _).mem_iff.2
    (List.mem_cons_of_mem _ (List.mem_append_right _ (List.mem_singleton.2 rfl)))

/-- In a sorted list containing an element `≤ t` and an element `> t`, some
consecutive pair brackets `t`. -/
theorem sorted_window : ∀ (xs : List ℚ), xs.Pairwise (fun a b : ℚ => a ≤ b) →
    ∀ a b t : ℚ, a ∈ xs → b ∈ xs → a ≤ t → t < b →
    ∃ c, c + 1 < xs.length ∧ xs.getD c 0 ≤ t ∧ t < xs.getD (c + 1) 0 := by
  intro xs
  induction xs with
  | nil => intro _ a b t ha _ _ _; cases ha
  | cons x rest ih =>
      intro hs a b t ha hb hat htb
      cases rest with
      | nil =>
          rw [List.mem_singleton.1 ha] at hat
          rw [List.mem_singleton.1 hb] at htb
          exact absurd (lt_of_le_of_lt hat htb) (lt_irrefl _)
      | cons y rest2 =>
          by_cases hty : t < y
          · refine ⟨0, by simp, ?_, hty⟩
            rcases List.mem_cons.1 ha with rfl | ha2
            · exact hat
            · exact le_trans ((List.pairwise_cons.1 hs).1 a ha2) hat
          · have hs2 : (y :: rest2).Pairwise (fun a b : ℚ => a ≤ b) :=
              (List.pairwise_cons.1 hs).2
            have hb2 : b ∈ y :: rest2 := by
              rcases List.mem_cons.1 hb with hbx | hb2
              · exfalso
                have hxy : b ≤ y := hbx ▸
                  (List.pairwise_cons.1 hs).1 y (List.mem_cons_self _ _)
                exact absurd (lt_of_le_of_lt (le_trans hxy (not_lt.1 hty)) htb)
                  (lt_irrefl _)
              · exact hb2
            obtain ⟨c, hc, h1, h2⟩ := ih hs2 y b t (List.mem_cons_self _ _) hb2
              (not_lt.1 hty) htb
            exact ⟨c + 1, by simpa using hc, h1, h2⟩

theorem sorted_getD_le {xs : List ℚ} (hs : xs.Pairwise (fun a b : ℚ => a ≤ b))
    {i j : ℕ} (hij : i ≤ j) (hj : j < xs.length) :
    xs.getD i 0 ≤ xs.getD j 0 := by
  rcases Nat.eq_or_lt_of_le hij with rfl | hlt
  · exact le_refl _
  · have hi : i < xs.length := lt_trans hlt hj
    rw [List.getD_eq_getElem _ _ hi, List.getD_eq_getElem _ _ hj]
    exact List.pairwise_iff_getElem.1 hs i j hi hj hlt

/-! ### Geometry: grid cells -/

theorem mem_gridCells_iff {cx cy : ℚ} {xs ys : List ℚ} {s : SliceRect} :
    s ∈ gridCells cx cy xs ys ↔
    ∃ r c, r + 1 < ys.length ∧ c + 1 < xs.length ∧
      ¬(xs.getD (c + 1) 0 - xs.getD c 0 ≤ 0 ∨ ys.getD (r + 1) 0 - ys.getD r 0 ≤ 0) ∧
      s = { x := cx + xs.getD c 0, y := cy + ys.getD r 0,
            w := xs.getD (c + 1) 0 - xs.getD c 0,
            h := ys.getD (r + 1) 0 - ys.getD r 0,
            canvasW := jsRound (xs.getD (c + 1) 0 - xs.getD c 0),
            canvasH := jsRound (ys.getD (r + 1) 0 - ys.getD r 0) } := by
  simp only [gridCells, List.mem_flatMap, List.mem_range, List.mem_filterMap]
  constructor
  · rintro ⟨r, hr, c, hc, hsome⟩
    split at hsome
    · cases hsome
    · rename_i hcond
      exact ⟨r, c, by omega, by omega, hcond, (Option.some.inj hsome).symm⟩
  · rintro ⟨r, c, hr, hc, hcond, rfl⟩
    refine ⟨r, by omega, c, by omega, ?_⟩
    rw [if_neg hcond]

theorem gridCells_positive {cx cy : ℚ} {xs ys : List ℚ} :
    ∀ s ∈ gridCells cx cy xs ys, 0 < s.w ∧ 0 < s.h := by
  intro s hs
  obtain ⟨r, c, _, _, hcond, rfl⟩ := mem_gridCells_iff.1 hs
  push_neg at hcond
  exact ⟨hcond.1, hcond.2⟩

theorem gridCells_pairwise_disjoint {cx cy : ℚ} {xs ys : List ℚ}
    (hxs : xs.Pairwise (fun a b : ℚ => a ≤ b))
    (hys : ys.Pairwise (fun a b : ℚ => a ≤ b)) :
    (gridCells cx cy xs ys).Pairwise
      (fun s t => ∀ qx qy : ℚ, ¬(pointInSlice s qx qy ∧ pointInSlice t qx qy)) := by
  rw [gridCells, List.pairwise_flatMap]
  constructor
  · intro r _
    rw [List.pairwise_filterMap, List.pairwise_iff_getElem]
    intro i j hi hj hij
    rw [List.getElem_range, List.getElem_range]
    rw [List.length_range] at hi hj
    intro s hs t ht qx qy hq
    rw [Option.mem_def] at hs ht
    dsimp only at hs ht
    split at hs
    · cases hs
    rename_i hcondi
    split at ht
    · cases ht
    rename_i hcondj
    rw [← Option.some.inj hs, ← Option.some.inj ht] at hq
    obtain ⟨⟨_, hq2, _, _⟩, ⟨hq5, _, _, _⟩⟩ := hq
    have hmono : xs.getD (i + 1) 0 ≤ xs.getD j 0 :=
      sorted_getD_le hxs (by omega) (by omega)
    simp only at hq2 hq5
    linarith
  · rw [List.pairwise_iff_getElem]
    intro i j hi hj hij
    rw [List.getElem_range, List.getElem_range]
    rw [List.length_range] at hi hj
    intro s hs t ht qx qy hq
    rcases List.mem_filterMap.1 hs with ⟨c1, hc1, hsc⟩
    rcases List.mem_filterMap.1 ht with ⟨c2, hc2, htc⟩
    rw [List.mem_range] at hc1 hc2
    dsimp only at hsc htc
    split at hsc
    · cases hsc
    split at htc
    · cases htc
    rw [← Option.some.inj hsc, ← Option.some.inj htc] at hq
    obtain ⟨⟨_, _, _, hq4⟩, ⟨_, _, hq7, _⟩⟩ := hq
    have hmono : ys.getD (i + 1) 0 ≤ ys.getD j 0 :=
      sorted_getD_le hys (by omega) (by omega)
    simp only at hq4 hq7
    linarith

theorem gridCells_cover {cx cy xlen ylen : ℚ} {xs ys : List ℚ}
    (hxs : xs.Pairwise (fun a b : ℚ => a ≤ b))
    (hys : ys.Pairwise (fun a b : ℚ => a ≤ b))
    (hx0 : (0 : ℚ) ∈ xs) (hxl : xlen ∈ xs)
    (hy0 : (0 : ℚ) ∈ ys) (hyl : ylen ∈ ys)
    {qx qy : ℚ} (h1 : cx ≤ qx) (h2 : qx < cx + xlen)
    (h3 : cy ≤ qy) (h4 : qy < cy + ylen) :
    ∃ s ∈ gridCells cx cy xs ys, pointInSlice s qx qy := by
  obtain ⟨c, hc, hc1, hc2⟩ := sorted_window xs hxs 0 xlen (qx - cx) hx0 hxl
    (by linarith) (by linarith)
  obtain ⟨r, hr, hr1, hr2⟩ := sorted_window ys hys 0 ylen (qy - cy) hy0 hyl
    (by linarith) (by linarith)
  refine ⟨_, mem_gridCells_iff.2 ⟨r, c, hr, hc, ?_, rfl⟩, ?_, ?_, ?_, ?_⟩
  · rintro (hbad | hbad) <;> linarith
  · show cx + xs.getD c 0 ≤ qx
    linarith
  · show qx < cx + xs.getD c 0 + (xs.getD (c + 1) 0 - xs.getD c 0)
    linarith
  · show cy + ys.getD r 0 ≤ qy
    linarith
  · show qy < cy + ys.getD r 0 + (ys.getD (r + 1) 0 - ys.getD r 0)
    linarith

theorem length_filterMap_isSome {α β : Type} {f : α → Option β} :
    ∀ {l : List α}, (∀ a ∈ l, (f a).isSome = true) →
      (l.filterMap f).length = l.length := by
  intro l
  induction l with
  | nil => intro _; rfl
  | cons a l ih =>
      intro h
      cases hfa : f a with
      | none =>
          exact absurd (h a (List.mem_cons_self _ _)) (by simp [hfa])
      | some b =>
          rw [List.filterMap_cons_some hfa, List.length_cons, List.length_cons,
            ih (fun x hx => h x (List.mem_cons_of_mem _ hx))]

theorem gridCells_full_length {cx cy : ℚ} {xs ys : List ℚ}
    (hx : ∀ c, c + 1 < xs.length → xs.getD c 0 < xs.getD (c + 1) 0)
    (hy : ∀ r, r + 1 < ys.length → ys.getD r 0 < ys.getD (r + 1) 0) :
    (gridCells cx cy xs ys).length = (ys.length - 1) * (xs.length - 1) := by
  rw [gridCells]
  show (List.flatten (List.map _ _)).length = _
  rw [List.length_flatten, List.map_map]
  refine Eq.trans (congrArg List.sum ?_)
    (by rw [List.sum_replicate, smul_eq_mul])
  refine List.eq_replicate_iff.2 ⟨by simp, fun b hb => ?_⟩
  rcases List.mem_map.1 hb with ⟨r, hr, rfl⟩
  rw [List.mem_range] at hr
  show (List.filterMap _ (List.range (xs.length - 1))).length = xs.length - 1
  rw [length_filterMap_isSome, List.length_range]
  intro c hc
  rw [List.mem_range] at hc
  dsimp only
  rw [if_neg]
  · rfl
  · rintro (hbad | hbad)
    · exact absurd hbad (not_le.2 (sub_pos.2 (hx c (by omega))))
    · exact absurd hbad (not_le.2 (sub_pos.2 (hy r (by omega))))

theorem cutPositions_nodup (len : ℚ) (lines : List ℚ) (hlen : 0 < len)
    (hin : ∀ p ∈ lines, 0 < p ∧ p < 100) (hnd : lines.Nodup) :
    (cutPositions len lines).Nodup := by
  have hlne : len ≠ 0 := ne_of_gt hlen
  have hmapnd : (lines.map (fun p => p / 100 * len)).Nodup := by
    refine List.Nodup.map ?_ hnd
    intro p q h
    have h2 := mul_right_cancel₀ hlne h
    linarith
  rw [cutPositions]
  refine (List.mergeSort_perm _ _).nodup_iff.2 ?_
  refine List.nodup_cons.2 ⟨?_, ?_⟩
  · show (0 : ℚ) ∉ lines.map (fun p => p / 100 * len) ++ [len]
    rw [List.mem_append]
    rintro (h0 | h0)
    · rcases List.mem_map.1 h0 with ⟨p, hp, he⟩
      have hpos : 0 < p / 100 * len :=
        mul_pos (div_pos (hin p hp).1 (by norm_num)) hlen
      exact absurd he (ne_of_gt hpos)
    · rw [List.mem_singleton] at h0
      exact absurd h0.symm (ne_of_gt hlen)
  · show (lines.map (fun p => p / 100 * len) ++ [len]).Nodup
    rw [List.nodup_append]
    refine ⟨hmapnd, List.nodup_singleton _, ?_⟩
    intro x hx hx2
    rw [List.mem_singleton] at hx2
    rcases List.mem_map.1 hx with ⟨p, hp, he⟩
    have h1 : p / 100 * len = 1 * len := by rw [one_mul, he, hx2]
    have h2 := mul_right_cancel₀ hlne h1
    have hp100 : p = 100 := by linarith
    exact absurd hp100 (ne_of_lt (hin p hp).2)

theorem cutPositions_strict (len : ℚ) (lines : List ℚ) (hlen : 0 < len)
    (hin : ∀ p ∈ lines, 0 < p ∧ p < 100) (hnd : lines.Nodup) :
    ∀ c, c + 1 < (cutPositions len lines).length →
      (cutPositions len lines).getD c 0 < (cutPositions len lines).getD (c + 1) 0 := by
  intro c hc
  have hnd2 := cutPositions_nodup len lines hlen hin hnd
  have hle := sorted_getD_le (cutPositions_sorted len lines) (Nat.le_succ c) hc
  have hne : (cutPositions len lines).getD c 0 ≠
      (cutPositions len lines).getD (c + 1) 0 := by
    rw [List.getD_eq_getElem _ _ (by omega : c < (cutPositions len lines).length),
      List.getD_eq_getElem _ _ hc]
    exact List.pairwise_iff_getElem.1 hnd2 c (c + 1) (by omega) hc (by omega)
  exact lt_of_le_of_ne hle hne

/-- C2 (amended). The emitted rectangles are always pairwise disjoint, and
their union always covers the crop rectangle exactly; the count is exactly
`(N+1)*(M+1)` when the interior lines are distinct and strictly between 0
and 100 (a duplicated or boundary line produces a zero-width cell, which is
dropped). -/
theorem geometry_resolver_cells (W H : ℕ) (crop : PercentRect) (v hL : List ℚ) :
    (generateSlices W H crop v hL).Pairwise
      (fun s t => ∀ qx qy : ℚ, ¬(pointInSlice s qx qy ∧ pointInSlice t qx qy)) ∧
    (∀ qx qy : ℚ,
      crop.x / 100 * W ≤ qx → qx < crop.x / 100 * W + crop.w / 100 * W →
      crop.y / 100 * H ≤ qy → qy < crop.y / 100 * H + crop.h / 100 * H →
      ∃ s ∈ generateSlices W H crop v hL, pointInSlice s qx qy) ∧
    ((∀ p ∈ v, 0 < p ∧ p < 100) → (∀ p ∈ hL, 0 < p ∧ p < 100) →
      v.Nodup → hL.Nodup → 0 < crop.w / 100 * W → 0 < crop.h / 100 * H →
      (generateSlices W H crop v hL).length = (v.length + 1) * (hL.length + 1)) := by
  have hgs : generateSlices W H crop v hL =
      gridCells (crop.x / 100 * W) (crop.y / 100 * H)
        (cutPositions (crop.w / 100 * W) v) (cutPositions (crop.h / 100 * H) hL) := rfl
  refine ⟨?_, ?_, ?_⟩
  · rw [hgs]
    exact gridCells_pairwise_disjoint (cutPositions_sorted _ _) (cutPositions_sorted _ _)
  · intro qx qy h1 h2 h3 h4
    rw [hgs]
    exact gridCells_cover (cutPositions_sorted _ _) (cutPositions_sorted _ _)
      (cutPositions_mem_zero _ _) (cutPositions_mem_len _ _)
      (cutPositions_mem_zero _ _) (cutPositions_mem_len _ _) h1 h2 h3 h4
  · intro hv hh hnv hnh hcw hch
    rw [hgs, gridCells_full_length (cutPositions_strict _ _ hcw hv hnv)
      (cutPositions_strict _ _ hch hh hnh), cutPositions_length, cutPositions_length]
    exact Nat.mul_comm _ _

/-- C5 (amended). Every emitted slice has strictly positive real width and
height (cells with non-positive real extent are dropped before rounding);
the rounded canvas size is not what the drop test inspects. -/
theorem emitted_slices_positive (W H : ℕ) (crop : PercentRect) (v hL : List ℚ) :
    ∀ s ∈ generateSlices W H crop v hL, 0 < s.w ∧ 0 < s.h := by
  intro s hs
  exact gridCells_positive s hs

/-- Witness for C2 (amended): on a 100×100 image with full crop and one
interior vertical line at 50%, a point is covered by some emitted slice, and
exactly `(1+1)*(0+1)` slices are emitted. -/
theorem geometry_resolver_cells_witness :
    (∃ s ∈ generateSlices 100 100 ⟨0, 0, 100, 100⟩ [50] [], pointInSlice s 70 30) ∧
    (generateSlices 100 100 ⟨0, 0, 100, 100⟩ [50] []).length =
      (([50] : List ℚ).length + 1) * (([] : List ℚ).length + 1) :=
  ⟨(geometry_resolver_cells 100 100 ⟨0, 0, 100, 100⟩ [50] []).2.1 70 30
      (by norm_num) (by norm_num) (by norm_num) (by norm_num),
   (geometry_resolver_cells 100 100 ⟨0, 0, 100, 100⟩ [50] []).2.2
      (by intro p hp; rw [List.mem_singleton] at hp; rw [hp]; norm_num)
      (by intro p hp; cases hp)
      (by simp) List.nodup_nil (by norm_num) (by norm_num)⟩

/-- C2 is false as stated: with the duplicated interior vertical line set
`[50, 50]` (N = 2) over a full 100×100 crop, the resolver emits 2 rectangles,
not `(N+1)*(M+1) = 3` — the zero-width middle cell is dropped. -/
theorem geometry_resolver_cells_counterexample :
    (generateSlices 100 100 ⟨0, 0, 100, 100⟩ [50, 50] []).length ≠
      (([50, 50] : List ℚ).length + 1) * (([] : List ℚ).length + 1) := by
  have hlen : (generateSlices 100 100 ⟨0, 0, 100, 100⟩ [50, 50] []).length = 2 := by
    simp only [generateSlices, gridCells, cutPositions, List.map_cons, List.map_nil]
    norm_num
    rw [mergeSort_sorted_eval (by norm_num [List.pairwise_cons]),
        mergeSort_sorted_eval (by norm_num [List.pairwise_cons])]
    norm_num [List.range_succ, jsRound, List.filterMap_cons, List.filterMap_nil]
  rw [hlen]
  decide

/-- Witness for C5 (amended) at the full-crop single cell. -/
theorem emitted_slices_positive_witness :
    0 < ({ x := 0, y := 0, w := 100, h := 100, canvasW := 100, canvasH := 100 } :
        SliceRect).w ∧
    0 < ({ x := 0, y := 0, w := 100, h := 100, canvasW := 100, canvasH := 100 } :
        SliceRect).h :=
  emitted_slices_positive 100 100 ⟨0, 0, 100, 100⟩ [] [] _ (by
    have hg : generateSlices 100 100 ⟨0, 0, 100, 100⟩ [] [] =
        [{ x := 0, y := 0, w := 100, h := 100, canvasW := 100, canvasH := 100 }] := by
      simp only [generateSlices, gridCells, cutPositions, List.map_cons, List.map_nil]
      norm_num
      rw [mergeSort_sorted_eval (by norm_num [List.pairwise_cons])]
      norm_num [List.range_succ, jsRound, List.filterMap_cons, List.filterMap_nil]
    rw [hg]
    exact List.mem_singleton.2 rfl)

/-- C5 is false as stated: the drop test runs on the real-valued extent
before rounding, so a 0.4px-wide cell (vertical line at 0.4% of a 100px
crop) is emitted with rounded canvas width 0. -/
theorem emitted_slices_positive_counterexample :
    ∃ s ∈ generateSlices 100 100 ⟨0, 0, 100, 100⟩ [2/5] [], s.canvasW = 0 := by
  have hmap : (generateSlices 100 100 ⟨0, 0, 100, 100⟩ [2/5] []).map
      SliceRect.canvasW = [0, 100] := by
    simp only [generateSlices, gridCells, cutPositions, List.map_cons, List.map_nil]
    norm_num
    rw [mergeSort_sorted_eval (by norm_num [List.pairwise_cons]),
        mergeSort_sorted_eval (by norm_num [List.pairwise_cons])]
    norm_num [List.range_succ, jsRound, List.filterMap_cons, List.filterMap_nil]
  have h0 : (0 : ℤ) ∈ (generateSlices 100 100 ⟨0, 0, 100, 100⟩ [2/5] []).map
      SliceRect.canvasW := by
    rw [hmap]
    exact List.mem_cons_self _ _
  rcases List.mem_map.1 h0 with ⟨s, hs, he⟩
  exact ⟨s, hs, he⟩

end SmartSlider
